import Mathlib

/-
Verification of the redlines text-alignment engine (redlines/processor.py).

Texts are modelled as `List Char` (Python `str` is a sequence of Unicode code
points).  Tokens are `List Char`; token sequences are `List (List Char)`.
The difflib `SequenceMatcher` used by `WholeDocumentProcessor.process` is
embedded below following the CPython standard-library implementation
(`difflib.py`), with `isjunk = None` and the default `autojunk = True`.
-/

set_option maxHeartbeats 1000000

namespace Redlines

theorem dropWhile_len_le {α : Type} (p : α → Bool) (l : List α) :
    (l.dropWhile p).length ≤ l.length :=
  (List.dropWhile_sublist p).length_le

/-- The character class matched by Python's `\s` on `str` (and the set stripped
by `str.strip()`): ASCII whitespace together with the Unicode whitespace
code points. -/
def pySpace (c : Char) : Bool :=
  c == ' ' || ('\t' ≤ c && c ≤ '\r') ||
  ('\x1c' ≤ c && c ≤ '\x1f') || c == '\x85' || c == '\xa0' ||
  c == '\u1680' || (0x2000 ≤ c.toNat && c.toNat ≤ 0x200a) ||
  c == '\u2028' || c == '\u2029' || c == '\u202f' || c == '\u205f' || c == '\u3000'

/-- `re.findall(tokenizer, text)` for
`tokenizer = re.compile(r"((?:[^()\s]+|[().?!-])\s*)")` (processor.py line 15).
A match starts only at a non-whitespace character: either a maximal run of
characters that are neither parentheses nor whitespace (the first, greedy
alternative `[^()\s]+` — note it admits `.?!-`), or a single parenthesis
(the only characters of `[().?!-]` not already covered by the first
alternative), each followed by the greedy `\s*`.  `re.findall` skips a
character at which no match can start, which here happens exactly at
whitespace not consumed by a preceding token's `\s*`. -/
def tokenizeRegex : List Char → List (List Char)
  | [] => []
  | c :: rest =>
    if pySpace c then
      tokenizeRegex rest
    else if c == '(' || c == ')' then
      (c :: rest.takeWhile pySpace) :: tokenizeRegex (rest.dropWhile pySpace)
    else
      let run := rest.takeWhile (fun d => !(d == '(' || d == ')' || pySpace d))
      let rest1 := rest.dropWhile (fun d => !(d == '(' || d == ')' || pySpace d))
      ((c :: run) ++ rest1.takeWhile pySpace) :: tokenizeRegex (rest1.dropWhile pySpace)
termination_by cs => cs.length
decreasing_by
  · simp only [List.length_cons]; omega
  · have h1 := dropWhile_len_le pySpace rest
    simp only [List.length_cons]; omega
  · have h1 := dropWhile_len_le (fun d => !(d == '(' || d == ')' || pySpace d)) rest
    have h2 := dropWhile_len_le pySpace
      (rest.dropWhile (fun d => !(d == '(' || d == ')' || pySpace d)))
    simp only [List.length_cons]; omega

/-- Modelled from the spec: the linguistic strategy delegates to the external
spaCy English tokenizer (`nlp`, processor.py line 45), whose rule set is not
part of this repository.  Per the spec (§4.1) each segment is emitted as one
token and a following whitespace run as a separate token; this is the
`token.text` / `token.whitespace_` structure consumed by `_spacy_tokenize`
(processor.py lines 50–54).  We model the segmentation as maximal runs of
whitespace / non-whitespace characters. -/
def spacyTokenize : List Char → List (List Char)
  | [] => []
  | c :: rest =>
    (c :: rest.takeWhile (fun d => pySpace d == pySpace c)) ::
      spacyTokenize (rest.dropWhile (fun d => pySpace d == pySpace c))
termination_by cs => cs.length
decreasing_by
  · have h1 := dropWhile_len_le (fun d => pySpace d == pySpace c) rest
    simp only [List.length_cons]; omega

/-- `TokenizerType.REGEX` (StrEnum member, value "regex"). -/
def TokenizerType.REGEX : String := "regex"

/-- `TokenizerType.SPACY` (StrEnum member, value "spacy"). -/
def TokenizerType.SPACY : String := "spacy"

/-- `tokenize_text` (processor.py lines 56–62).  Python's type annotation is
not enforced at run time, so the `choice` argument is modelled as an
arbitrary string value; the two valid values are the StrEnum members.
The `raise ValueError(f"Invalid choice: {choice}")` branch is modelled as
`Except.error`. -/
def tokenize_text (text : List Char) (choice : String) :
    Except String (List (List Char)) :=
  if choice = TokenizerType.REGEX then .ok (tokenizeRegex text)
  else if choice = TokenizerType.SPACY then .ok (spacyTokenize text)
  else .error ("Invalid choice: " ++ choice)

/-- The maximal match of `paragraph_pattern = re.compile(r"((?:\n *)+)")`
(processor.py line 33) starting at the head of the list (which is `'\n'`
whenever the caller found a match there): greedily consume `'\n'` followed
by zero or more spaces, one or more times.  Returns
(matched separator, remainder). -/
def takeSep : List Char → List Char × List Char
  | [] => ([], [])
  | c :: rest =>
    if c = '\n' then
      let s2 := takeSep (rest.dropWhile (· = ' '))
      (c :: (rest.takeWhile (· = ' ') ++ s2.1), s2.2)
    else ([], c :: rest)
termination_by cs => cs.length
decreasing_by
  · have h1 := dropWhile_len_le (· = ' ') rest
    simp only [List.length_cons]; omega

theorem takeSep_snd_length_le : ∀ cs : List Char, (takeSep cs).2.length ≤ cs.length
  | [] => by simp [takeSep]
  | c :: rest => by
    rw [takeSep]
    by_cases h : c = '\n'
    · simp only [if_pos h]
      have ih := takeSep_snd_length_le (rest.dropWhile (· = ' '))
      have h1 := dropWhile_len_le (· = ' ') rest
      simp only [List.length_cons]
      omega
    · simp [if_neg h]
termination_by cs => cs.length
decreasing_by
  · have h1 := dropWhile_len_le (· = ' ') rest
    simp only [List.length_cons]; omega

theorem takeSep_cons_newline_snd_le (rest : List Char) :
    (takeSep ('\n' :: rest)).2.length ≤ rest.length := by
  rw [takeSep]
  have ih := takeSep_snd_length_le (rest.dropWhile (· = ' '))
  have h1 := dropWhile_len_le (· = ' ') rest
  simp only [reduceIte]
  omega

/-- `re.split(paragraph_pattern, text)` (processor.py line 75).  Because the
pattern has a capturing group, `re.split` returns the pieces *and* the
matched separators, interleaved.  A match starts at the leftmost `'\n'` and
is maximal (the pattern is greedy); when no match remains the rest of the
text is the final piece. -/
def reSplitParas (cs : List Char) : List (List Char) :=
  if h : cs.dropWhile (· ≠ '\n') = [] then [cs.takeWhile (· ≠ '\n')]
  else
    cs.takeWhile (· ≠ '\n') :: (takeSep (cs.dropWhile (· ≠ '\n'))).1 ::
      reSplitParas (takeSep (cs.dropWhile (· ≠ '\n'))).2
termination_by cs.length
decreasing_by
  · have hh := List.head_dropWhile_not (· ≠ '\n') cs h
    have hh' : (cs.dropWhile (· ≠ '\n')).head h = '\n' := by simpa using hh
    have hcons : (cs.dropWhile (· ≠ '\n')).head h :: (cs.dropWhile (· ≠ '\n')).tail
        = cs.dropWhile (· ≠ '\n') := List.head_cons_tail _ h
    rw [hh'] at hcons
    have h2 := takeSep_cons_newline_snd_le ((cs.dropWhile (· ≠ '\n')).tail)
    rw [hcons] at h2
    have h3 := dropWhile_len_le (· ≠ '\n') cs
    have h4 : (cs.dropWhile (· ≠ '\n')).tail.length < (cs.dropWhile (· ≠ '\n')).length := by
      rw [← hcons]; simp
    omega

/-- `str.strip()`: remove leading and trailing whitespace. -/
def pyStrip (s : List Char) : List Char :=
  ((s.dropWhile pySpace).reverse.dropWhile pySpace).reverse

/-- `split_paragraphs` (processor.py lines 65–81): split on the paragraph
pattern, keep the segments that are non-empty and not whitespace-only
(`re.fullmatch(space_pattern, s)` on a non-empty `s` holds exactly when
every character is whitespace), and strip each survivor. -/
def split_paragraphs (text : List Char) : List (List Char) :=
  (reSplitParas text).filterMap fun s =>
    if s ≠ [] ∧ ¬ (s.all pySpace = true) then some (pyStrip s) else none

/-- The literal three-character separator inserted between paragraphs. -/
def pilcrowSep : List Char := [' ', '¶', ' ']

/-- `concatenate_paragraphs_and_add_chr_182` (processor.py lines 84–103):
the loop appends each paragraph followed by `" ¶ "` (modelled by `flatMap`),
`result.pop()` removes the final separator when there is at least one
paragraph (`dropLast`), and `"".join(result)` concatenates. -/
def concatenate_paragraphs_and_add_chr_182 (text : List Char) : List Char :=
  let paragraphs := split_paragraphs text
  let result := paragraphs.flatMap fun p => [p, pilcrowSep]
  let result := if paragraphs.length > 0 then result.dropLast else result
  result.flatten

/-- Spec-side definition (§4.2 `normalize`): join the paragraphs with the
separator between consecutive paragraphs; zero paragraphs give the empty
string and a single paragraph is returned unchanged. -/
def joinSep (sep : List Char) : List (List Char) → List Char
  | [] => []
  | [p] => p
  | p :: q :: rest => p ++ sep ++ joinSep sep (q :: rest)

/-! ## difflib.SequenceMatcher, as instantiated by `WholeDocumentProcessor.process`:
`SequenceMatcher(None, seq_source, seq_test)`, i.e. `isjunk = None` (so `bjunk`
is empty and the junk extension loops of `find_longest_match` never fire) and
`autojunk = True` (so elements of `b` occurring more than `len(b) // 100 + 1`
times are purged from `b2j` when `len(b) >= 200`).  Token type is generic. -/

section SeqMatcher

variable {α : Type} [DecidableEq α] [Inhabited α]

/-- The position list `b2j[e]` as built by `__chain_b` before purging:
all indices `i` of `b` with `b[i] == e`, in increasing order. -/
def b2jAll (b : List α) (e : α) : List Nat :=
  (List.range b.length).filter (fun i => decide (b.getD i default = e))

/-- The autojunk purge of `__chain_b`: with `n = len(b)`, when `n >= 200`
an element with more than `n // 100 + 1` positions is deleted from `b2j`. -/
def popularPurged (b : List α) (e : α) : Bool :=
  decide (200 ≤ b.length) && decide (b.length / 100 + 1 < (b2jAll b e).length)

/-- `b2j.get(a[i], [])` after `__chain_b` finished. -/
def b2jGet (b : List α) (e : α) : List Nat :=
  if popularPurged b e then [] else b2jAll b e

/-- `dict.get(j, 0)` on the `j2len`/`newj2len` dictionaries, modelled as
association lists (new bindings are consed in front; keys bound in one row
are distinct, so the representation is faithful). -/
def alookup : List (Nat × Nat) → Nat → Nat
  | [], _ => 0
  | (k, v) :: rest, j => if k = j then v else alookup rest j

/-- The loop state of `find_longest_match`. -/
structure FlmState where
  j2len : List (Nat × Nat)
  besti : Nat
  bestj : Nat
  bestsize : Nat
deriving Repr, DecidableEq

/-- `k = newj2len[j] = j2len.get(j-1, 0) + 1`.  In Python the lookup key for
`j = 0` is `-1`, which is never bound, so the value is `1` there. -/
def kval (old : List (Nat × Nat)) (j : Nat) : Nat :=
  if j = 0 then 1 else alookup old (j - 1) + 1

/-- One iteration of the inner `for j in b2j.get(a[i], nothing)` loop:
bind `newj2len[j]` and update the best match when `k > bestsize`
(the new best is `(i-k+1, j-k+1, k)`). -/
def innerStep (old : List (Nat × Nat)) (i : Nat) (st : FlmState) (j : Nat) : FlmState :=
  let k := kval old j
  let st' : FlmState := { st with j2len := (j, k) :: st.j2len }
  if st'.bestsize < k then
    { st' with besti := i + 1 - k, bestj := j + 1 - k, bestsize := k }
  else st'

/-- The positions iterated by the inner loop: `b2j.get(a[i], [])` restricted to
`blo <= j < bhi` (`continue` below `blo`; `break` at `bhi` — since the
position list is increasing this is the same as filtering). -/
def rowJs (b : List α) (blo bhi : Nat) (x : α) : List Nat :=
  (b2jGet b x).filter (fun j => decide (blo ≤ j) && decide (j < bhi))

/-- One iteration of the outer `for i in range(alo, ahi)` loop:
`newj2len` starts empty, lookups go to the previous row's `j2len`. -/
def innerRow (b : List α) (blo bhi i : Nat) (st : FlmState) (x : α) : FlmState :=
  (rowJs b blo bhi x).foldl (innerStep st.j2len i) { st with j2len := [] }

/-- The outer loop of `find_longest_match`, counting `cnt` rows starting at
row `i` (invoked with `i = alo`, `cnt = ahi - alo`). -/
def flmLoop (a b : List α) (blo bhi : Nat) : Nat → Nat → FlmState → FlmState
  | 0, _, st => st
  | cnt + 1, i, st => flmLoop a b blo bhi cnt (i + 1) (innerRow b blo bhi i st (a.getD i default))

/-- The backward extension loop of `find_longest_match`
(`while besti > alo and bestj > blo and ... a[besti-1] == b[bestj-1]`);
`isjunk` is `None`, so `bjunk` is empty: the non-junk condition is always
true and the subsequent junk-extension loops never fire. -/
def extendBack (a b : List α) (alo blo : Nat) (besti bestj bestsize : Nat) : Nat × Nat × Nat :=
  if h : alo < besti ∧ blo < bestj ∧
      a.getD (besti - 1) default = b.getD (bestj - 1) default then
    extendBack a b alo blo (besti - 1) (bestj - 1) (bestsize + 1)
  else (besti, bestj, bestsize)
termination_by besti
decreasing_by
  · omega

/-- The forward extension loop of `find_longest_match`
(`while besti+bestsize < ahi and bestj+bestsize < bhi and
a[besti+bestsize] == b[bestj+bestsize]`). -/
def extendFwd (a b : List α) (ahi bhi besti bestj : Nat) (bestsize : Nat) : Nat :=
  if h : besti + bestsize < ahi ∧ bestj + bestsize < bhi ∧
      a.getD (besti + bestsize) default = b.getD (bestj + bestsize) default then
    extendFwd a b ahi bhi besti bestj (bestsize + 1)
  else bestsize
termination_by ahi - (besti + bestsize)
decreasing_by
  · omega

/-- The forward extension applied to the result of the backward extension. -/
def flmFinish (a b : List α) (ahi bhi : Nat) : Nat × Nat × Nat → Nat × Nat × Nat
  | (i, j, k) => (i, j, extendFwd a b ahi bhi i j k)

/-- `find_longest_match(alo, ahi, blo, bhi)`: run the main loop from the
initial best `(alo, blo, 0)`, then the two extension loops. -/
def find_longest_match (a b : List α) (alo ahi blo bhi : Nat) : Nat × Nat × Nat :=
  flmFinish a b ahi bhi
    (extendBack a b alo blo
      (flmLoop a b blo bhi (ahi - alo) alo ⟨[], alo, blo, 0⟩).besti
      (flmLoop a b blo bhi (ahi - alo) alo ⟨[], alo, blo, 0⟩).bestj
      (flmLoop a b blo bhi (ahi - alo) alo ⟨[], alo, blo, 0⟩).bestsize)

/-! ### Range bounds for `find_longest_match`

The returned match `(i, j, k)` always satisfies `alo ≤ i`, `blo ≤ j`,
`i + k ≤ ahi`, `j + k ≤ bhi` whenever `k > 0`; this both justifies the
termination of the recursive block collection and yields the tiling
invariant of the opcode list. -/

theorem foldl_inv {β γ : Type} (P : γ → Prop) (f : γ → β → γ) :
    ∀ (l : List β) (s : γ), P s → (∀ s x, x ∈ l → P s → P (f s x)) → P (l.foldl f s)
  | [], s, h, _ => h
  | x :: l, s, h, hstep =>
    foldl_inv P f l (f s x) (hstep s x (List.mem_cons_self x l) h)
      (fun s' y hy h' => hstep s' y (List.mem_cons_of_mem x hy) h')

theorem rowJs_mem {b : List α} {blo bhi : Nat} {x : α} {j : Nat}
    (h : j ∈ rowJs b blo bhi x) :
    blo ≤ j ∧ j < bhi ∧ j < b.length ∧ b.getD j default = x := by
  unfold rowJs b2jGet at h
  split at h
  · simp at h
  · unfold b2jAll at h
    simp only [List.mem_filter, List.mem_range, Bool.and_eq_true, decide_eq_true_eq] at h
    exact ⟨h.2.1, h.2.2, h.1.1, h.1.2⟩

theorem alookup_cons (k v : Nat) (l : List (Nat × Nat)) (j : Nat) :
    alookup ((k, v) :: l) j = if k = j then v else alookup l j := rfl

theorem innerStep_eq (old : List (Nat × Nat)) (i : Nat) (st : FlmState) (j : Nat) :
    innerStep old i st j =
      if st.bestsize < kval old j then
        ⟨(j, kval old j) :: st.j2len, i + 1 - kval old j, j + 1 - kval old j, kval old j⟩
      else ⟨(j, kval old j) :: st.j2len, st.besti, st.bestj, st.bestsize⟩ := rfl

theorem kval_le_row {old : List (Nat × Nat)} {bound : Nat}
    (h : ∀ j, alookup old j ≤ bound) (j : Nat) : kval old j ≤ bound + 1 := by
  unfold kval
  split
  · omega
  · exact Nat.succ_le_succ (h _)

theorem kval_le_key {old : List (Nat × Nat)} {blo : Nat}
    (h : ∀ j, blo ≤ j + 1 → alookup old j + blo ≤ j + 1) {j : Nat} (hj : blo ≤ j) :
    kval old j + blo ≤ j + 1 := by
  unfold kval
  split
  · omega
  · have := h (j - 1) (by omega); omega

/-- Invariant of the main loop after processing rows `[alo, i)`. -/
def GInv (alo ahi blo bhi i : Nat) (st : FlmState) : Prop :=
  alo ≤ st.besti ∧ blo ≤ st.bestj ∧
  st.besti + st.bestsize ≤ ahi ∧ st.bestj + st.bestsize ≤ bhi ∧
  (∀ j, alookup st.j2len j ≤ i - alo) ∧
  (∀ j, blo ≤ j + 1 → alookup st.j2len j + blo ≤ j + 1)

theorem innerRow_ginv {b : List α} {alo ahi blo bhi i : Nat} {st : FlmState} (x : α)
    (hi1 : alo ≤ i) (hi2 : i < ahi) (hg : GInv alo ahi blo bhi i st) :
    GInv alo ahi blo bhi (i + 1) (innerRow b blo bhi i st x) := by
  obtain ⟨h1, h2, h3, h4, h5, h6⟩ := hg
  unfold innerRow
  apply foldl_inv (GInv alo ahi blo bhi (i + 1))
  · exact ⟨h1, h2, h3, h4, fun j => by simp [alookup], fun j hblo => by simp [alookup]; omega⟩
  · intro s j hj hs
    obtain ⟨hjb, hjh, _, _⟩ := rowJs_mem hj
    obtain ⟨g1, g2, g3, g4, g5, g6⟩ := hs
    have hk1 : kval st.j2len j ≤ (i - alo) + 1 := kval_le_row h5 j
    have hk2 : kval st.j2len j + blo ≤ j + 1 := kval_le_key h6 hjb
    rw [innerStep_eq]
    split
    · refine ⟨?_, ?_, ?_, ?_, fun j' => ?_, fun j' hblo => ?_⟩ <;> dsimp only
      · omega
      · omega
      · omega
      · omega
      · rw [alookup_cons]; split <;> [omega; exact g5 j']
      · rw [alookup_cons]; split <;> [omega; exact g6 j' hblo]
    · refine ⟨?_, ?_, ?_, ?_, fun j' => ?_, fun j' hblo => ?_⟩ <;> dsimp only
      · exact g1
      · exact g2
      · exact g3
      · exact g4
      · rw [alookup_cons]; split <;> [omega; exact g5 j']
      · rw [alookup_cons]; split <;> [omega; exact g6 j' hblo]

theorem flmLoop_ginv {a b : List α} {alo ahi blo bhi : Nat} :
    ∀ (cnt i : Nat) (st : FlmState), alo ≤ i → i + cnt ≤ ahi →
      GInv alo ahi blo bhi i st →
      GInv alo ahi blo bhi (i + cnt) (flmLoop a b blo bhi cnt i st)
  | 0, i, st, _, _, hg => hg
  | cnt + 1, i, st, h1, h2, hg => by
    rw [flmLoop]
    have hrow := innerRow_ginv (b := b) (a.getD i default) h1 (by omega) hg
    have hrec := flmLoop_ginv (a := a) (b := b) cnt (i + 1) _ (by omega) (by omega) hrow
    have heq : i + 1 + cnt = i + (cnt + 1) := by omega
    rw [heq] at hrec
    exact hrec

theorem extendBack_spec (a b : List α) (alo blo besti bestj bestsize : Nat)
    (h1 : alo ≤ besti) (h2 : blo ≤ bestj) :
    alo ≤ (extendBack a b alo blo besti bestj bestsize).1 ∧
    blo ≤ (extendBack a b alo blo besti bestj bestsize).2.1 ∧
    (extendBack a b alo blo besti bestj bestsize).1 +
      (extendBack a b alo blo besti bestj bestsize).2.2 = besti + bestsize ∧
    (extendBack a b alo blo besti bestj bestsize).2.1 +
      (extendBack a b alo blo besti bestj bestsize).2.2 = bestj + bestsize := by
  rw [extendBack.eq_def]
  split
  · rename_i h
    have ih := extendBack_spec a b alo blo (besti - 1) (bestj - 1) (bestsize + 1)
      (by omega) (by omega)
    exact ⟨ih.1, ih.2.1, by omega, by omega⟩
  · exact ⟨h1, h2, rfl, rfl⟩
termination_by besti
decreasing_by
  · omega

theorem extendFwd_spec (a b : List α) (ahi bhi besti bestj bestsize : Nat)
    (h1 : besti + bestsize ≤ ahi) (h2 : bestj + bestsize ≤ bhi) :
    besti + extendFwd a b ahi bhi besti bestj bestsize ≤ ahi ∧
    bestj + extendFwd a b ahi bhi besti bestj bestsize ≤ bhi ∧
    bestsize ≤ extendFwd a b ahi bhi besti bestj bestsize := by
  rw [extendFwd.eq_def]
  split
  · rename_i h
    have ih := extendFwd_spec a b ahi bhi besti bestj (bestsize + 1) (by omega) (by omega)
    exact ⟨ih.1, ih.2.1, by omega⟩
  · exact ⟨h1, h2, le_refl _⟩
termination_by ahi - (besti + bestsize)
decreasing_by
  · omega

theorem extendBack_stop (a b : List α) (alo blo k : Nat) :
    extendBack a b alo blo alo blo k = (alo, blo, k) := by
  rw [extendBack.eq_def]
  exact dif_neg (fun hcon => absurd hcon.1 (lt_irrefl _))

theorem extendFwd_stop_a (a b : List α) (ahi bhi besti bestj k : Nat)
    (h : ahi ≤ besti + k) : extendFwd a b ahi bhi besti bestj k = k := by
  rw [extendFwd.eq_def]
  exact dif_neg (fun hcon => absurd hcon.1 (by omega))

theorem extendFwd_stop_b (a b : List α) (ahi bhi besti bestj k : Nat)
    (h : bhi ≤ bestj + k) : extendFwd a b ahi bhi besti bestj k = k := by
  rw [extendFwd.eq_def]
  exact dif_neg (fun hcon => absurd hcon.2.1 (by omega))

theorem flm_bounds (a b : List α) (alo ahi blo bhi : Nat)
    (h1 : alo ≤ ahi) (h2 : blo ≤ bhi) :
    alo ≤ (find_longest_match a b alo ahi blo bhi).1 ∧
    blo ≤ (find_longest_match a b alo ahi blo bhi).2.1 ∧
    (find_longest_match a b alo ahi blo bhi).1 +
      (find_longest_match a b alo ahi blo bhi).2.2 ≤ ahi ∧
    (find_longest_match a b alo ahi blo bhi).2.1 +
      (find_longest_match a b alo ahi blo bhi).2.2 ≤ bhi := by
  have hinit : GInv alo ahi blo bhi alo (⟨[], alo, blo, 0⟩ : FlmState) :=
    ⟨le_refl _, le_refl _, by simpa using h1, by simpa using h2,
      fun j => by simp [alookup], fun j hblo => by simp [alookup]; omega⟩
  have hloop := flmLoop_ginv (a := a) (b := b) (ahi - alo) alo ⟨[], alo, blo, 0⟩
    (le_refl _) (by omega) hinit
  obtain ⟨g1, g2, g3, g4, -, -⟩ := hloop
  have hb := extendBack_spec a b alo blo
    (flmLoop a b blo bhi (ahi - alo) alo ⟨[], alo, blo, 0⟩).besti
    (flmLoop a b blo bhi (ahi - alo) alo ⟨[], alo, blo, 0⟩).bestj
    (flmLoop a b blo bhi (ahi - alo) alo ⟨[], alo, blo, 0⟩).bestsize g1 g2
  rcases hEB : extendBack a b alo blo
    (flmLoop a b blo bhi (ahi - alo) alo ⟨[], alo, blo, 0⟩).besti
    (flmLoop a b blo bhi (ahi - alo) alo ⟨[], alo, blo, 0⟩).bestj
    (flmLoop a b blo bhi (ahi - alo) alo ⟨[], alo, blo, 0⟩).bestsize with ⟨i0, j0, k0⟩
  rw [hEB] at hb
  have hb1 : alo ≤ i0 := hb.1
  have hb2 : blo ≤ j0 := hb.2.1
  have hb3 : i0 + k0 = (flmLoop a b blo bhi (ahi - alo) alo ⟨[], alo, blo, 0⟩).besti +
      (flmLoop a b blo bhi (ahi - alo) alo ⟨[], alo, blo, 0⟩).bestsize := hb.2.2.1
  have hb4 : j0 + k0 = (flmLoop a b blo bhi (ahi - alo) alo ⟨[], alo, blo, 0⟩).bestj +
      (flmLoop a b blo bhi (ahi - alo) alo ⟨[], alo, blo, 0⟩).bestsize := hb.2.2.2
  have hf := extendFwd_spec a b ahi bhi i0 j0 k0 (by omega) (by omega)
  unfold find_longest_match
  rw [hEB, flmFinish]
  exact ⟨hb1, hb2, hf.1, hf.2.1⟩

theorem rowJs_eq_nil_of_le {b : List α} {blo bhi : Nat} (x : α) (h : bhi ≤ blo) :
    rowJs b blo bhi x = [] := by
  unfold rowJs
  apply List.filter_eq_nil_iff.mpr
  intro j _
  simp only [Bool.and_eq_true, decide_eq_true_eq, not_and]
  omega

theorem flmLoop_best_of_le {a b : List α} {blo bhi : Nat} (h : bhi ≤ blo) :
    ∀ (cnt i : Nat) (st : FlmState),
      (flmLoop a b blo bhi cnt i st).besti = st.besti ∧
      (flmLoop a b blo bhi cnt i st).bestj = st.bestj ∧
      (flmLoop a b blo bhi cnt i st).bestsize = st.bestsize
  | 0, i, st => ⟨rfl, rfl, rfl⟩
  | cnt + 1, i, st => by
    rw [flmLoop]
    have hrow : innerRow b blo bhi i st (a.getD i default) = { st with j2len := [] } := by
      unfold innerRow
      rw [rowJs_eq_nil_of_le _ h]
      rfl
    rw [hrow]
    exact flmLoop_best_of_le h cnt (i + 1) _

theorem flm_k_pos_bounds (a b : List α) (alo ahi blo bhi : Nat)
    (hk : 0 < (find_longest_match a b alo ahi blo bhi).2.2) :
    alo ≤ (find_longest_match a b alo ahi blo bhi).1 ∧
    blo ≤ (find_longest_match a b alo ahi blo bhi).2.1 ∧
    (find_longest_match a b alo ahi blo bhi).1 +
      (find_longest_match a b alo ahi blo bhi).2.2 ≤ ahi ∧
    (find_longest_match a b alo ahi blo bhi).2.1 +
      (find_longest_match a b alo ahi blo bhi).2.2 ≤ bhi := by
  by_cases h1 : alo ≤ ahi
  · by_cases h2 : blo ≤ bhi
    · exact flm_bounds a b alo ahi blo bhi h1 h2
    · exfalso
      have hbest := flmLoop_best_of_le (a := a) (b := b) (by omega : bhi ≤ blo)
        (ahi - alo) alo ⟨[], alo, blo, 0⟩
      have e1 : (flmLoop a b blo bhi (ahi - alo) alo ⟨[], alo, blo, 0⟩).besti = alo := hbest.1
      have e2 : (flmLoop a b blo bhi (ahi - alo) alo ⟨[], alo, blo, 0⟩).bestj = blo := hbest.2.1
      have e3 : (flmLoop a b blo bhi (ahi - alo) alo ⟨[], alo, blo, 0⟩).bestsize = 0 :=
        hbest.2.2
      have hflm : find_longest_match a b alo ahi blo bhi = (alo, blo, 0) := by
        unfold find_longest_match
        rw [e1, e2, e3, extendBack_stop, flmFinish,
          extendFwd_stop_b a b ahi bhi alo blo 0 (by omega)]
      rw [hflm] at hk
      exact Nat.lt_irrefl 0 hk
  · exfalso
    have hcnt : ahi - alo = 0 := by omega
    have e1 : (flmLoop a b blo bhi (ahi - alo) alo ⟨[], alo, blo, 0⟩).besti = alo := by
      rw [hcnt]; rfl
    have e2 : (flmLoop a b blo bhi (ahi - alo) alo ⟨[], alo, blo, 0⟩).bestj = blo := by
      rw [hcnt]; rfl
    have e3 : (flmLoop a b blo bhi (ahi - alo) alo ⟨[], alo, blo, 0⟩).bestsize = 0 := by
      rw [hcnt]; rfl
    have hflm : find_longest_match a b alo ahi blo bhi = (alo, blo, 0) := by
      unfold find_longest_match
      rw [e1, e2, e3, extendBack_stop, flmFinish,
        extendFwd_stop_a a b ahi bhi alo blo 0 (by omega)]
    rw [hflm] at hk
    exact Nat.lt_irrefl 0 hk

/-- The recursive block collection of `get_matching_blocks()`.  CPython drives
this with an explicit LIFO queue (`queue.pop()`), collects the blocks in an
arbitrary order and then sorts them; each subrange's `find_longest_match` is
independent of the queue discipline, every block found in the left subrange
lies strictly before `(i, j, k)` (componentwise, by the range bounds above)
and every block of the right subrange lies strictly after it, so the sorted
list equals this in-order recursion.  A range is enqueued for the left part
only when `alo < i and blo < j` and for the right part only when
`i+k < ahi and j+k < bhi`; a zero-size match contributes nothing. -/
def matchingBlocksRec (a b : List α) (alo ahi blo bhi : Nat) : List (Nat × Nat × Nat) :=
  match hm : find_longest_match a b alo ahi blo bhi with
  | (i, j, k) =>
    if hk : 0 < k then
      (if hl : alo < i ∧ blo < j then matchingBlocksRec a b alo i blo j else []) ++
      (i, j, k) ::
      (if hr : i + k < ahi ∧ j + k < bhi then
        matchingBlocksRec a b (i + k) ahi (j + k) bhi
       else [])
    else []
termination_by (ahi - alo) + (bhi - blo)
decreasing_by
  · have hb := flm_k_pos_bounds a b alo ahi blo bhi (by rw [hm]; exact hk)
    rw [hm] at hb
    have h1 : alo ≤ i := hb.1
    have h2 : blo ≤ j := hb.2.1
    have h3 : i + k ≤ ahi := hb.2.2.1
    have h4 : j + k ≤ bhi := hb.2.2.2
    omega
  · have hb := flm_k_pos_bounds a b alo ahi blo bhi (by rw [hm]; exact hk)
    rw [hm] at hb
    have h1 : alo ≤ i := hb.1
    have h2 : blo ≤ j := hb.2.1
    have h3 : i + k ≤ ahi := hb.2.2.1
    have h4 : j + k ≤ bhi := hb.2.2.2
    omega

/-- Collapse adjacent matching blocks (second phase of `get_matching_blocks()`):
`if i1 + k1 == i2 and j1 + k1 == j2` the blocks merge, otherwise `(i1,j1,k1)`
is emitted when `k1` is nonzero and the walk continues from the new block. -/
def collapseBlocks : Nat → Nat → Nat → List (Nat × Nat × Nat) → List (Nat × Nat × Nat)
  | i1, j1, k1, [] => if k1 ≠ 0 then [(i1, j1, k1)] else []
  | i1, j1, k1, (i2, j2, k2) :: rest =>
    if i1 + k1 = i2 ∧ j1 + k1 = j2 then collapseBlocks i1 j1 (k1 + k2) rest
    else (if k1 ≠ 0 then [(i1, j1, k1)] else []) ++ collapseBlocks i2 j2 k2 rest

/-- `get_matching_blocks()`: collect the blocks over the full ranges, collapse
adjacent blocks starting from the accumulator `(0, 0, 0)`, and append the
terminating sentinel `(len(a), len(b), 0)`. -/
def get_matching_blocks (a b : List α) : List (Nat × Nat × Nat) :=
  collapseBlocks 0 0 0 (matchingBlocksRec a b 0 a.length 0 b.length) ++
    [(a.length, b.length, 0)]

end SeqMatcher

/-- An opcode 5-tuple `(tag, i1, i2, j1, j2)`. -/
abbrev Opcode : Type := String × Nat × Nat × Nat × Nat

section SeqMatcher2

variable {α : Type} [DecidableEq α] [Inhabited α]

/-- The loop of `get_opcodes()`: walk the matching blocks keeping the current
positions `(i, j)`; before each block emit the gap opcode (`replace` when both
sides advance, else `delete` / `insert`), then the `equal` opcode when the
block size is nonzero, moving the positions to the block end. -/
def opcodesFromBlocks : Nat → Nat → List (Nat × Nat × Nat) → List Opcode
  | _, _, [] => []
  | i, j, (ai, bj, size) :: rest =>
    (if i < ai ∧ j < bj then [("replace", i, ai, j, bj)]
     else if i < ai then [("delete", i, ai, j, bj)]
     else if j < bj then [("insert", i, ai, j, bj)]
     else []) ++
    (if size ≠ 0 then [("equal", ai, ai + size, bj, bj + size)] else []) ++
    opcodesFromBlocks (ai + size) (bj + size) rest

/-- `get_opcodes()`. -/
def get_opcodes (a b : List α) : List Opcode :=
  opcodesFromBlocks 0 0 (get_matching_blocks a b)

/-! ### The tiling invariant of the opcode list (spec §3). -/

/-- Chained bounds for a list of matching blocks: every block has nonzero
size, starts at or after the running lower bounds, ends within
`(hi_i, hi_j)`, and the bounds advance to its end. -/
def blocksLE (hi_i hi_j : Nat) : Nat → Nat → List (Nat × Nat × Nat) → Prop
  | _, _, [] => True
  | lo_i, lo_j, (ai, bj, k) :: rest =>
    lo_i ≤ ai ∧ lo_j ≤ bj ∧ ai + k ≤ hi_i ∧ bj + k ≤ hi_j ∧ 0 < k ∧
      blocksLE hi_i hi_j (ai + k) (bj + k) rest

theorem blocksLE_append {ahi bhi i j k : Nat} :
    ∀ (L : List (Nat × Nat × Nat)) (lo_i lo_j : Nat), blocksLE i j lo_i lo_j L →
      lo_i ≤ i → lo_j ≤ j → i + k ≤ ahi → j + k ≤ bhi → 0 < k →
      ∀ R, blocksLE ahi bhi (i + k) (j + k) R →
      blocksLE ahi bhi lo_i lo_j (L ++ (i, j, k) :: R)
  | [], lo_i, lo_j, _, hli, hlj, hia, hjb, hk, R, hR =>
    ⟨hli, hlj, hia, hjb, hk, hR⟩
  | (ai, bj, k2) :: L, lo_i, lo_j, hL, hli, hlj, hia, hjb, hk, R, hR => by
    obtain ⟨g1, g2, g3, g4, g5, g6⟩ := hL
    exact ⟨g1, g2, by omega, by omega, g5,
      blocksLE_append L (ai + k2) (bj + k2) g6 g3 g4 hia hjb hk R hR⟩

theorem matchingBlocksRec_chain (a b : List α) (alo ahi blo bhi : Nat) :
    blocksLE ahi bhi alo blo (matchingBlocksRec a b alo ahi blo bhi) := by
  rw [matchingBlocksRec.eq_def]
  split
  rename_i i j k hm
  by_cases hk : 0 < k
  · rw [dif_pos hk]
    have hb := flm_k_pos_bounds a b alo ahi blo bhi (by rw [hm]; exact hk)
    rw [hm] at hb
    have h1 : alo ≤ i := hb.1
    have h2 : blo ≤ j := hb.2.1
    have h3 : i + k ≤ ahi := hb.2.2.1
    have h4 : j + k ≤ bhi := hb.2.2.2
    have hR : blocksLE ahi bhi (i + k) (j + k)
        (if hr : i + k < ahi ∧ j + k < bhi then
          matchingBlocksRec a b (i + k) ahi (j + k) bhi else []) := by
      by_cases hr : i + k < ahi ∧ j + k < bhi
      · rw [dif_pos hr]
        exact matchingBlocksRec_chain a b (i + k) ahi (j + k) bhi
      · rw [dif_neg hr]
        trivial
    by_cases hl : alo < i ∧ blo < j
    · rw [dif_pos hl]
      have hL := matchingBlocksRec_chain a b alo i blo j
      exact blocksLE_append _ alo blo hL (by omega) (by omega) h3 h4 hk _ hR
    · rw [dif_neg hl]
      exact blocksLE_append [] alo blo trivial h1 h2 h3 h4 hk _ hR
  · rw [dif_neg hk]
    trivial
termination_by (ahi - alo) + (bhi - blo)
decreasing_by
  · omega
  · omega

theorem matchingBlocksRec_eq {a b : List α} {alo ahi blo bhi i j k : Nat}
    (hm : find_longest_match a b alo ahi blo bhi = (i, j, k)) :
    matchingBlocksRec a b alo ahi blo bhi =
      if 0 < k then
        (if alo < i ∧ blo < j then matchingBlocksRec a b alo i blo j else []) ++
        (i, j, k) ::
        (if i + k < ahi ∧ j + k < bhi then
          matchingBlocksRec a b (i + k) ahi (j + k) bhi
         else [])
      else [] := by
  rw [matchingBlocksRec.eq_def]
  split
  rename_i i' j' k' hm'
  rw [hm] at hm'
  rw [Prod.mk.injEq, Prod.mk.injEq] at hm'
  obtain ⟨h1, h2, h3⟩ := hm'
  subst h1
  subst h2
  subst h3
  simp only [dite_eq_ite]

/-- The block layout consumed by `get_opcodes()`: positions never move
backwards, and the final block (the sentinel) ends exactly at
`(la, lb)`. -/
def blocksMonoT (la lb : Nat) : Nat → Nat → List (Nat × Nat × Nat) → Prop
  | i, j, [] => i = la ∧ j = lb
  | i, j, (ai, bj, k) :: rest => i ≤ ai ∧ j ≤ bj ∧ blocksMonoT la lb (ai + k) (bj + k) rest

theorem collapse_mono (la lb : Nat) :
    ∀ (L : List (Nat × Nat × Nat)) (i1 j1 k1 lo_i lo_j : Nat),
      blocksLE la lb (i1 + k1) (j1 + k1) L →
      lo_i ≤ i1 → lo_j ≤ j1 → i1 + k1 ≤ la → j1 + k1 ≤ lb →
      blocksMonoT la lb lo_i lo_j (collapseBlocks i1 j1 k1 L ++ [(la, lb, 0)])
  | [], i1, j1, k1, lo_i, lo_j, _, hli, hlj, hia, hjb => by
    rw [collapseBlocks]
    by_cases hk1 : k1 ≠ 0
    · rw [if_pos hk1]
      exact ⟨hli, hlj, hia, hjb, by constructor <;> omega⟩
    · rw [if_neg hk1]
      simp only [ne_eq, Decidable.not_not] at hk1
      exact ⟨by omega, by omega, by constructor <;> omega⟩
  | (i2, j2, k2) :: rest, i1, j1, k1, lo_i, lo_j, hL, hli, hlj, hia, hjb => by
    obtain ⟨g1, g2, g3, g4, g5, g6⟩ := hL
    rw [collapseBlocks]
    by_cases hmerge : i1 + k1 = i2 ∧ j1 + k1 = j2
    · rw [if_pos hmerge]
      have g6' : blocksLE la lb (i1 + (k1 + k2)) (j1 + (k1 + k2)) rest := by
        have e1 : i1 + (k1 + k2) = i2 + k2 := by omega
        have e2 : j1 + (k1 + k2) = j2 + k2 := by omega
        rw [e1, e2]
        exact g6
      exact collapse_mono la lb rest i1 j1 (k1 + k2) lo_i lo_j g6' hli hlj
        (by omega) (by omega)
    · rw [if_neg hmerge]
      by_cases hk1 : k1 ≠ 0
      · rw [if_pos hk1]
        exact ⟨hli, hlj,
          collapse_mono la lb rest i2 j2 k2 (i1 + k1) (j1 + k1) g6 g1 g2 g3 g4⟩
      · rw [if_neg hk1]
        simp only [ne_eq, Decidable.not_not] at hk1
        exact collapse_mono la lb rest i2 j2 k2 lo_i lo_j g6 (by omega) (by omega) g3 g4

/-- The tiling predicate of spec §3 on an opcode list: starting from
positions `(i, j)`, every opcode starts exactly where the previous one ended
(`i1 = i`, `j1 = j`), its ranges do not go backwards, and the final opcode
ends exactly at `(la, lb)`; the first opcode therefore starts at the initial
positions. -/
def opcodesTile (la lb : Nat) : Nat → Nat → List Opcode → Prop
  | i, j, [] => i = la ∧ j = lb
  | i, j, (_, i1, i2, j1, j2) :: rest =>
    i1 = i ∧ j1 = j ∧ i ≤ i2 ∧ j ≤ j2 ∧ opcodesTile la lb i2 j2 rest

theorem opcodesFromBlocks_tile (la lb : Nat) :
    ∀ (L : List (Nat × Nat × Nat)) (i j : Nat), blocksMonoT la lb i j L →
      opcodesTile la lb i j (opcodesFromBlocks i j L)
  | [], i, j, h => h
  | (ai, bj, size) :: rest, i, j, h => by
    obtain ⟨hia, hjb, hrest⟩ := h
    have ih := opcodesFromBlocks_tile la lb rest (ai + size) (bj + size) hrest
    have hrest2 : opcodesTile la lb ai bj
        ((if size ≠ 0 then [("equal", ai, ai + size, bj, bj + size)] else []) ++
          opcodesFromBlocks (ai + size) (bj + size) rest) := by
      by_cases hs : size ≠ 0
      · rw [if_pos hs]
        exact ⟨rfl, rfl, by omega, by omega, ih⟩
      · rw [if_neg hs]
        simp only [ne_eq, Decidable.not_not] at hs
        subst hs
        simpa using ih
    rw [opcodesFromBlocks]
    by_cases h1 : i < ai ∧ j < bj
    · rw [if_pos h1]
      exact ⟨rfl, rfl, by omega, by omega, hrest2⟩
    · rw [if_neg h1]
      by_cases h2 : i < ai
      · rw [if_pos h2]
        exact ⟨rfl, rfl, by omega, by omega, hrest2⟩
      · rw [if_neg h2]
        by_cases h3 : j < bj
        · rw [if_pos h3]
          exact ⟨rfl, rfl, by omega, by omega, hrest2⟩
        · rw [if_neg h3]
          have e1 : ai = i := by omega
          have e2 : bj = j := by omega
          subst e1
          subst e2
          simpa using hrest2

/-- The complete opcode list of `get_opcodes` tiles both sequences. -/
theorem get_opcodes_tile (a b : List α) :
    opcodesTile a.length b.length 0 0 (get_opcodes a b) := by
  unfold get_opcodes get_matching_blocks
  apply opcodesFromBlocks_tile
  apply collapse_mono
  · exact matchingBlocksRec_chain a b 0 a.length 0 b.length
  · exact le_refl 0
  · exact le_refl 0
  · exact Nat.zero_le _
  · exact Nat.zero_le _

/-! ### `align(S, S)`: the no-op diff (spec §8).

For equal sequences the main loop's best match is always diagonal
(`besti = bestj`): a chain value at `(i, j)` is bounded by the diagonal runs
of un-purged elements through row `i` and column `j` (`diagRun`), the column
positions are iterated in increasing order, and a best update requires a
strict improvement, so an off-diagonal chain can never win.  The extension
loops then extend any diagonal best to the full range — also across
autojunk-purged elements, which are popular but *not* junk (`bjunk` is
empty when `isjunk is None`). -/

/-- Length of the run of consecutive un-purged positions of `S` ending at
`j` (the length of the diagonal chain through `(j, j)` when matching `S`
against itself). -/
def diagRun (S : List α) : Nat → Nat
  | 0 => if popularPurged S (S.getD 0 default) then 0 else 1
  | j + 1 => if popularPurged S (S.getD (j + 1) default) then 0 else diagRun S j + 1

theorem diagRun_le (S : List α) : ∀ j, diagRun S j ≤ j + 1
  | 0 => by rw [diagRun]; split <;> omega
  | j + 1 => by
    rw [diagRun]
    have := diagRun_le S j
    split <;> omega

theorem diagRun_eq_of_not_purged (S : List α) {j : Nat}
    (h : popularPurged S (S.getD j default) = false) :
    diagRun S j = (if j = 0 then 0 else diagRun S (j - 1)) + 1 := by
  cases j with
  | zero => rw [diagRun, h]; simp
  | succ j => rw [diagRun, h]; simp

theorem diagRun_purged (S : List α) {j : Nat}
    (h : popularPurged S (S.getD j default) = true) : diagRun S j = 0 := by
  cases j with
  | zero => rw [diagRun, h]; simp
  | succ j => rw [diagRun, h]; simp

theorem rowJs_pairwise (b : List α) (blo bhi : Nat) (x : α) :
    (rowJs b blo bhi x).Pairwise (· < ·) := by
  unfold rowJs b2jGet b2jAll
  split
  · exact List.Pairwise.nil
  · exact ((List.pairwise_lt_range _).filter _).filter _

theorem rowJs_mem_not_purged {b : List α} {blo bhi : Nat} {x : α} {j : Nat}
    (h : j ∈ rowJs b blo bhi x) : popularPurged b x = false := by
  by_contra hp
  simp only [Bool.not_eq_false] at hp
  unfold rowJs b2jGet at h
  rw [if_pos hp] at h
  simp at h

theorem rowJs_self_mem {S : List α} {i : Nat} (hi : i < S.length)
    (hnp : popularPurged S (S.getD i default) = false) :
    i ∈ rowJs S 0 S.length (S.getD i default) := by
  unfold rowJs b2jGet b2jAll
  simp [hnp, List.mem_filter, List.mem_range, hi]
  rw [← List.getD_eq_getElem S default hi]
  exact hnp

theorem alookup_uniform (f : Nat → Nat) :
    ∀ (E : List (Nat × Nat)), (∀ p ∈ E, p.2 = f p.1) →
      ∀ (acc : List (Nat × Nat)) (j : Nat),
        alookup (E ++ acc) j = if j ∈ E.map Prod.fst then f j else alookup acc j
  | [], _, acc, j => by simp
  | (k, v) :: E, hE, acc, j => by
    have hv : v = f k := hE (k, v) (List.mem_cons_self _ _)
    have ih := alookup_uniform f E (fun p hp => hE p (List.mem_cons_of_mem _ hp)) acc j
    simp only [List.cons_append, alookup_cons, List.map_cons, List.mem_cons]
    by_cases hkj : k = j
    · subst hkj
      rw [if_pos rfl, if_pos (Or.inl rfl), hv]
    · rw [if_neg hkj, ih]
      by_cases hmem : j ∈ E.map Prod.fst
      · rw [if_pos hmem, if_pos (Or.inr hmem)]
      · rw [if_neg hmem, if_neg]
        intro hcon
        rcases hcon with h | h
        · exact hkj h.symm
        · exact hmem h

theorem foldl_innerStep_j2len (old : List (Nat × Nat)) (i : Nat) :
    ∀ (js' : List Nat) (st : FlmState),
      (js'.foldl (innerStep old i) st).j2len =
        (js'.map (fun x => (x, kval old x))).reverse ++ st.j2len
  | [], st => by simp
  | j :: js', st => by
    rw [List.foldl_cons, foldl_innerStep_j2len old i js' (innerStep old i st j)]
    have hj : (innerStep old i st j).j2len = (j, kval old j) :: st.j2len := by
      rw [innerStep_eq]; split <;> rfl
    rw [hj]
    simp [List.reverse_cons, List.append_assoc]

theorem innerRow_alookup (old : List (Nat × Nat)) (i : Nat) (js' : List Nat)
    (st : FlmState) (j : Nat) :
    alookup ((js'.foldl (innerStep old i) st).j2len) j =
      if j ∈ js' then kval old j else alookup st.j2len j := by
  rw [foldl_innerStep_j2len]
  have huni : ∀ p ∈ (js'.map (fun x => (x, kval old x))).reverse, p.2 = kval old p.1 := by
    intro p hp
    simp only [List.mem_reverse, List.mem_map] at hp
    obtain ⟨x, -, rfl⟩ := hp
    rfl
  rw [alookup_uniform (kval old) _ huni st.j2len j]
  rw [List.map_reverse, List.map_map]
  have hcomp : (Prod.fst ∘ fun x : Nat => (x, kval old x)) = fun x : Nat => x := rfl
  rw [hcomp, List.map_id']
  simp only [List.mem_reverse]

/-- Fold invariant of the inner loop when comparing `S` against itself:
the best match is diagonal, within bounds, dominates the diagonal runs of
all processed rows, and dominates the diagonal run of the current row once
its diagonal position has been processed. -/
def QDiag (S : List α) (i : Nat) (js' : List Nat) (st : FlmState) : Prop :=
  st.besti = st.bestj ∧ st.besti + st.bestsize ≤ S.length ∧
  (∀ j, j < i → diagRun S j ≤ st.bestsize) ∧
  (i ∈ js' ∨ diagRun S i ≤ st.bestsize)

theorem innerFold_diag (S : List α) (old : List (Nat × Nat)) (i : Nat)
    (hF1 : ∀ j ∈ rowJs S 0 S.length (S.getD i default), kval old j ≤ diagRun S j)
    (hF2 : ∀ j ∈ rowJs S 0 S.length (S.getD i default), kval old j ≤ diagRun S i)
    (hF3 : i ∈ rowJs S 0 S.length (S.getD i default) → diagRun S i ≤ kval old i) :
    ∀ (js' : List Nat) (st : FlmState),
      js'.Pairwise (· < ·) →
      (∀ j ∈ js', j ∈ rowJs S 0 S.length (S.getD i default)) →
      QDiag S i js' st →
      QDiag S i [] (js'.foldl (innerStep old i) st)
  | [], _, _, _, hq => hq
  | j :: js', st, hpw, hsub, hq => by
    obtain ⟨hq1, hq2, hq3, hq4⟩ := hq
    obtain ⟨hpw1, hpw2⟩ := List.pairwise_cons.mp hpw
    have hmem := hsub j (List.mem_cons_self _ _)
    have hk1 := hF1 j hmem
    have hk2 := hF2 j hmem
    rw [List.foldl_cons]
    have hsub' : ∀ x ∈ js', x ∈ rowJs S 0 S.length (S.getD i default) :=
      fun x hx => hsub x (List.mem_cons_of_mem _ hx)
    rcases Nat.lt_trichotomy j i with hji | hji | hji
    · -- `j < i`: the chain value is dominated by a processed diagonal run
      have hnoup : ¬ st.bestsize < kval old j := by
        have := hq3 j hji
        omega
      have hstep : innerStep old i st j =
          ⟨(j, kval old j) :: st.j2len, st.besti, st.bestj, st.bestsize⟩ := by
        rw [innerStep_eq, if_neg hnoup]
      rw [hstep]
      apply innerFold_diag S old i hF1 hF2 hF3 js' _ hpw2 hsub'
      refine ⟨hq1, hq2, hq3, ?_⟩
      rcases hq4 with h | h
      · rcases List.mem_cons.mp h with h' | h'
        · omega
        · exact Or.inl h'
      · exact Or.inr h
    · -- `j = i`: the diagonal position; an update stays on the diagonal
      subst hji
      have hdle : diagRun S j ≤ kval old j := hF3 hmem
      by_cases hup : st.bestsize < kval old j
      · have hstep : innerStep old j st j =
            ⟨(j, kval old j) :: st.j2len, j + 1 - kval old j, j + 1 - kval old j,
              kval old j⟩ := by
          rw [innerStep_eq, if_pos hup]
        rw [hstep]
        apply innerFold_diag S old j hF1 hF2 hF3 js' _ hpw2 hsub'
        have hkle : kval old j ≤ j + 1 := le_trans hk2 (diagRun_le S j)
        have hjlen : j < S.length := (rowJs_mem hmem).2.2.1
        refine ⟨rfl, by dsimp only; omega, fun j' hj' => ?_, Or.inr ?_⟩
        · have := hq3 j' hj'
          dsimp only
          omega
        · dsimp only
          omega
      · have hstep : innerStep old j st j =
            ⟨(j, kval old j) :: st.j2len, st.besti, st.bestj, st.bestsize⟩ := by
          rw [innerStep_eq, if_neg hup]
        rw [hstep]
        apply innerFold_diag S old j hF1 hF2 hF3 js' _ hpw2 hsub'
        exact ⟨hq1, hq2, hq3, Or.inr (le_trans hdle (Nat.le_of_not_lt hup))⟩
    · -- `i < j`: the diagonal position was already processed (or never occurs)
      have hright : diagRun S i ≤ st.bestsize := by
        rcases hq4 with h | h
        · rcases List.mem_cons.mp h with h' | h'
          · omega
          · exact absurd (hpw1 i h') (by omega)
        · exact h
      have hnoup : ¬ st.bestsize < kval old j := by omega
      have hstep : innerStep old i st j =
          ⟨(j, kval old j) :: st.j2len, st.besti, st.bestj, st.bestsize⟩ := by
        rw [innerStep_eq, if_neg hnoup]
      rw [hstep]
      apply innerFold_diag S old i hF1 hF2 hF3 js' _ hpw2 hsub'
      exact ⟨hq1, hq2, hq3, Or.inr hright⟩

/-- Invariant of the self-comparison main loop after processing rows `[0, i)`:
the best is diagonal and dominates all processed diagonal runs, and `j2len`
holds the chain values of row `i - 1`, which are dominated by (and on the
diagonal equal to, hence at least) the corresponding diagonal runs. -/
def DInv (S : List α) (i : Nat) (st : FlmState) : Prop :=
  st.besti = st.bestj ∧ st.besti + st.bestsize ≤ S.length ∧
  (∀ j, j < i → diagRun S j ≤ st.bestsize) ∧
  (∀ j, alookup st.j2len j ≤ diagRun S j) ∧
  (∀ j, alookup st.j2len j ≤ (if i = 0 then 0 else diagRun S (i - 1))) ∧
  (1 ≤ i → diagRun S (i - 1) ≤ alookup st.j2len (i - 1))

theorem innerRow_dinv (S : List α) {i : Nat} (hi : i < S.length) {st : FlmState}
    (hd : DInv S i st) :
    DInv S (i + 1) (innerRow S 0 S.length i st (S.getD i default)) := by
  obtain ⟨hd1, hd2, hd3, hd4, hd5, hd6⟩ := hd
  have hmemnp : ∀ j ∈ rowJs S 0 S.length (S.getD i default),
      popularPurged S (S.getD j default) = false := by
    intro j hj
    have h1 := rowJs_mem hj
    have h2 := rowJs_mem_not_purged hj
    rw [h1.2.2.2]
    exact h2
  have hF1 : ∀ j ∈ rowJs S 0 S.length (S.getD i default),
      kval st.j2len j ≤ diagRun S j := by
    intro j hj
    rw [diagRun_eq_of_not_purged S (hmemnp j hj)]
    unfold kval
    split
    · rename_i h0
      simp [h0]
    · have := hd4 (j - 1)
      omega
  have hF2 : ∀ j ∈ rowJs S 0 S.length (S.getD i default),
      kval st.j2len j ≤ diagRun S i := by
    intro j hj
    have hnpi : popularPurged S (S.getD i default) = false := rowJs_mem_not_purged hj
    rw [diagRun_eq_of_not_purged S hnpi]
    unfold kval
    split
    · split <;> omega
    · have := hd5 (j - 1)
      omega
  have hF3 : i ∈ rowJs S 0 S.length (S.getD i default) →
      diagRun S i ≤ kval st.j2len i := by
    intro hmem
    have hnpi : popularPurged S (S.getD i default) = false := rowJs_mem_not_purged hmem
    rw [diagRun_eq_of_not_purged S hnpi]
    unfold kval
    split
    · rename_i h0
      simp [h0]
    · rename_i h0
      have := hd6 (by omega)
      omega
  have hq0 : QDiag S i (rowJs S 0 S.length (S.getD i default))
      ({ st with j2len := [] }) := by
    refine ⟨hd1, hd2, hd3, ?_⟩
    by_cases hp : popularPurged S (S.getD i default) = false
    · exact Or.inl (rowJs_self_mem hi hp)
    · refine Or.inr ?_
      have hpt : popularPurged S (S.getD i default) = true := by
        revert hp
        cases popularPurged S (S.getD i default) <;> simp
      rw [diagRun_purged S hpt]
      omega
  have hfold := innerFold_diag S st.j2len i hF1 hF2 hF3 _ _
    (rowJs_pairwise _ _ _ _) (fun x hx => hx) hq0
  obtain ⟨hb1, hb2, hb3, hb4⟩ := hfold
  have hb4' : diagRun S i ≤
      ((rowJs S 0 S.length (S.getD i default)).foldl (innerStep st.j2len i)
        { st with j2len := [] }).bestsize := by
    rcases hb4 with h | h
    · simp at h
    · exact h
  have hlk : ∀ j,
      alookup (((rowJs S 0 S.length (S.getD i default)).foldl (innerStep st.j2len i)
        { st with j2len := [] }).j2len) j =
      if j ∈ rowJs S 0 S.length (S.getD i default) then kval st.j2len j else 0 := by
    intro j
    rw [innerRow_alookup]
    rfl
  unfold innerRow
  refine ⟨hb1, hb2, ?_, ?_, ?_, ?_⟩
  · intro j hj
    rcases (by omega : j < i ∨ j = i) with h | h
    · exact hb3 j h
    · subst h
      exact hb4'
  · intro j
    rw [hlk j]
    split
    · rename_i hmem
      exact hF1 j hmem
    · omega
  · intro j
    rw [hlk j]
    simp only [Nat.add_sub_cancel, if_neg (Nat.succ_ne_zero i)]
    split
    · rename_i hmem
      exact hF2 j hmem
    · omega
  · intro _
    simp only [Nat.add_sub_cancel]
    rw [hlk i]
    split
    · rename_i hmem
      exact hF3 hmem
    · rename_i hmem
      by_cases hp : popularPurged S (S.getD i default) = false
      · exact absurd (rowJs_self_mem hi hp) hmem
      · have hpt : popularPurged S (S.getD i default) = true := by
          revert hp
          cases popularPurged S (S.getD i default) <;> simp
        rw [diagRun_purged S hpt]

theorem flmLoop_dinv (S : List α) :
    ∀ (cnt i : Nat) (st : FlmState), i + cnt ≤ S.length → DInv S i st →
      DInv S (i + cnt) (flmLoop S S 0 S.length cnt i st)
  | 0, _, _, _, hd => hd
  | cnt + 1, i, st, hle, hd => by
    rw [flmLoop]
    have hrow := innerRow_dinv S (by omega : i < S.length) hd
    have hrec := flmLoop_dinv S cnt (i + 1) _ (by omega) hrow
    have heq : i + 1 + cnt = i + (cnt + 1) := by omega
    rw [heq] at hrec
    exact hrec

theorem extendBack_diag (a : List α) : ∀ (d k : Nat),
    extendBack a a 0 0 d d k = (0, 0, d + k)
  | 0, k => by
    rw [extendBack.eq_def, dif_neg (fun hcon => absurd hcon.1 (lt_irrefl _))]
    rw [Nat.zero_add]
  | d + 1, k => by
    rw [extendBack.eq_def, dif_pos ⟨Nat.succ_pos d, Nat.succ_pos d, rfl⟩]
    rw [Nat.add_sub_cancel, extendBack_diag a d (k + 1)]
    have he : d + (k + 1) = d + 1 + k := by omega
    rw [he]

theorem extendFwd_diag (a : List α) (s : Nat) (hs : s ≤ a.length) :
    extendFwd a a a.length a.length 0 0 s = a.length := by
  by_cases h : s < a.length
  · rw [extendFwd.eq_def, dif_pos ⟨by omega, by omega, rfl⟩]
    exact extendFwd_diag a (s + 1) (by omega)
  · have he : s = a.length := by omega
    subst he
    rw [extendFwd.eq_def, dif_neg (fun hcon => absurd hcon.1 (by omega))]
termination_by a.length - s
decreasing_by
  · omega

/-- `find_longest_match` over the full range of two equal sequences returns
the whole-range match. -/
theorem flm_self (S : List α) :
    find_longest_match S S 0 S.length 0 S.length = (0, 0, S.length) := by
  have hinit : DInv S 0 (⟨[], 0, 0, 0⟩ : FlmState) :=
    ⟨rfl, by simp, fun j hj => by omega, fun j => by simp [alookup],
      fun j => by simp [alookup], fun h => by omega⟩
  have hloop := flmLoop_dinv S S.length 0 ⟨[], 0, 0, 0⟩ (by omega) hinit
  obtain ⟨e1, e2, -, -, -, -⟩ := hloop
  unfold find_longest_match
  rw [Nat.sub_zero]
  rw [← e1, extendBack_diag, flmFinish, extendFwd_diag S _ e2]

/-- `get_opcodes(S, S)` for non-empty `S` is one full-range `equal` opcode. -/
theorem get_opcodes_self (S : List α) (h : S ≠ []) :
    get_opcodes S S = [("equal", 0, S.length, 0, S.length)] := by
  have hn : 0 < S.length := List.length_pos.mpr h
  have hblocks : matchingBlocksRec S S 0 S.length 0 S.length = [(0, 0, S.length)] := by
    rw [matchingBlocksRec.eq_def]
    split
    rename_i i j k hm
    rw [flm_self] at hm
    rw [Prod.mk.injEq, Prod.mk.injEq] at hm
    obtain ⟨h1, h2, h3⟩ := hm
    subst h1
    subst h2
    subst h3
    rw [dif_pos hn]
    rw [dif_neg (fun hcon => absurd hcon.1 (lt_irrefl _))]
    rw [dif_neg (fun hcon => absurd hcon.1 (by omega))]
    simp
  unfold get_opcodes get_matching_blocks
  rw [hblocks]
  have hc : collapseBlocks 0 0 0 [(0, 0, S.length)] = [(0, 0, S.length)] := by
    rw [collapseBlocks, if_pos ⟨rfl, rfl⟩, collapseBlocks,
      if_pos (by omega : 0 + S.length ≠ 0)]
    simp
  rw [hc, List.singleton_append]
  rw [opcodesFromBlocks]
  rw [if_neg (fun hcon => absurd hcon.1 (lt_irrefl _)), if_neg (lt_irrefl 0),
    if_neg (lt_irrefl 0), if_pos (by omega : S.length ≠ 0)]
  rw [opcodesFromBlocks]
  rw [if_neg (fun hcon => absurd hcon.1 (by omega)), if_neg (by omega : ¬ 0 + S.length < S.length),
    if_neg (by omega : ¬ 0 + S.length < S.length), if_neg (by omega : ¬ (0 : Nat) ≠ 0)]
  rw [opcodesFromBlocks]
  simp

end SeqMatcher2

/-! ### Round-trip properties of the tokenizers (spec §4.1, §8). -/

theorem dropWhile_idem {β : Type} (p : β → Bool) (l : List β) :
    (l.dropWhile p).dropWhile p = l.dropWhile p := by
  rcases hl : l.dropWhile p with - | ⟨x, xs⟩
  · simp
  · have hx := List.head?_dropWhile_not p l
    rw [hl] at hx
    simp only [List.head?_cons] at hx
    rw [List.dropWhile_cons_of_neg]
    simp [hx]

/-- Concatenating the pattern tokenizer's tokens reproduces the input with
its leading whitespace removed (`re.findall` skips exactly the whitespace
at which no match can start). -/
theorem tokenizeRegex_join : ∀ cs : List Char,
    (tokenizeRegex cs).flatten = cs.dropWhile pySpace
  | [] => by simp [tokenizeRegex]
  | c :: rest => by
    rw [tokenizeRegex]
    by_cases h1 : pySpace c = true
    · rw [if_pos h1, tokenizeRegex_join rest, List.dropWhile_cons_of_pos h1]
    · rw [if_neg h1, List.dropWhile_cons_of_neg h1]
      by_cases h2 : (c == '(' || c == ')') = true
      · rw [if_pos h2]
        simp only [List.flatten_cons]
        rw [tokenizeRegex_join (rest.dropWhile pySpace), dropWhile_idem]
        simp only [List.cons_append, List.takeWhile_append_dropWhile]
      · rw [if_neg h2]
        simp only [List.flatten_cons]
        rw [tokenizeRegex_join
          ((rest.dropWhile fun d => !(d == '(' || d == ')' || pySpace d)).dropWhile pySpace),
          dropWhile_idem]
        simp only [List.cons_append, List.append_assoc, List.takeWhile_append_dropWhile]
termination_by cs => cs.length
decreasing_by
  · simp only [List.length_cons]; omega
  · have := dropWhile_len_le pySpace rest
    simp only [List.length_cons]; omega
  · have h3 := dropWhile_len_le (fun d => !(d == '(' || d == ')' || pySpace d)) rest
    have h4 := dropWhile_len_le pySpace
      (rest.dropWhile fun d => !(d == '(' || d == ')' || pySpace d))
    simp only [List.length_cons]; omega

/-- Concatenating the modelled linguistic tokenizer's tokens reproduces the
input exactly. -/
theorem spacyTokenize_join : ∀ cs : List Char, (spacyTokenize cs).flatten = cs
  | [] => by simp [spacyTokenize]
  | c :: rest => by
    rw [spacyTokenize]
    simp only [List.flatten_cons]
    rw [spacyTokenize_join (rest.dropWhile fun d => pySpace d == pySpace c)]
    simp only [List.cons_append, List.takeWhile_append_dropWhile]
termination_by cs => cs.length
decreasing_by
  · have := dropWhile_len_le (fun d => pySpace d == pySpace c) rest
    simp only [List.length_cons]; omega

/-! ### The paragraph normalizer refines the joined-with-separator form
(spec §4.2). -/

theorem bindSep_dropLast_flatten (sep : List Char) :
    ∀ (ps : List (List Char)) (p : List Char),
      (((p :: ps).flatMap fun x => [x, sep]).dropLast).flatten = joinSep sep (p :: ps)
  | [], p => by simp [joinSep]
  | q :: rest, p => by
    have ih := bindSep_dropLast_flatten sep rest q
    simp only [List.flatMap_cons, List.cons_append, List.nil_append,
      List.dropLast_cons₂, List.flatten_cons] at ih ⊢
    rw [ih]
    simp [joinSep, List.append_assoc]

/-- `concatenate_paragraphs_and_add_chr_182` equals the spec-side
join-with-separator of the paragraph list. -/
theorem concat_eq_joinSep (cs : List Char) :
    concatenate_paragraphs_and_add_chr_182 cs =
      joinSep pilcrowSep (split_paragraphs cs) := by
  unfold concatenate_paragraphs_and_add_chr_182
  rcases hps : split_paragraphs cs with - | ⟨p, ps⟩
  · simp [joinSep]
  · simp only [List.length_cons, gt_iff_lt, Nat.succ_pos, if_pos]
    exact bindSep_dropLast_flatten pilcrowSep ps p

/-! ### Structure of `split_paragraphs` (spec §4.2). -/

theorem mem_pyStrip {s : List Char} {c : Char} (h : c ∈ pyStrip s) : c ∈ s := by
  unfold pyStrip at h
  rw [List.mem_reverse] at h
  have h1 := (List.dropWhile_sublist pySpace).subset h
  rw [List.mem_reverse] at h1
  exact (List.dropWhile_sublist pySpace).subset h1

theorem pyStrip_eq_nil_iff (s : List Char) :
    pyStrip s = [] ↔ s.all pySpace = true := by
  unfold pyStrip
  rw [List.reverse_eq_nil_iff, List.dropWhile_eq_nil_iff]
  constructor
  · intro h
    rw [List.all_eq_true]
    intro x hx
    have hsplit : x ∈ s.takeWhile pySpace ++ s.dropWhile pySpace := by
      rw [List.takeWhile_append_dropWhile]
      exact hx
    rcases List.mem_append.mp hsplit with h1 | h1
    · exact List.mem_takeWhile_imp h1
    · exact h x (List.mem_reverse.mpr h1)
  · intro h x hx
    exact List.all_eq_true.mp h x
      ((List.dropWhile_sublist pySpace).subset (List.mem_reverse.mp hx))

theorem filterMap_strip (l : List (List Char)) :
    (l.filterMap fun s =>
      if s ≠ [] ∧ ¬ (s.all pySpace = true) then some (pyStrip s) else none) =
    (l.map pyStrip).filter (fun s => !s.isEmpty) := by
  induction l with
  | nil => rfl
  | cons s l ih =>
    rw [List.filterMap_cons, List.map_cons, List.filter_cons]
    by_cases hc : s ≠ [] ∧ ¬ (s.all pySpace = true)
    · rw [if_pos hc]
      have hne : pyStrip s ≠ [] := fun he => hc.2 ((pyStrip_eq_nil_iff s).mp he)
      have hb : (!(pyStrip s).isEmpty) = true := by
        simp [List.isEmpty_iff, hne]
      rw [if_pos hb, ih]
    · rw [if_neg hc]
      have hnil : pyStrip s = [] := by
        rw [pyStrip_eq_nil_iff]
        by_cases h0 : s = []
        · subst h0
          simp
        · rcases not_and_or.mp hc with h | h
          · exact absurd (h0 : ¬ s = []) (by simpa using h)
          · exact not_not.mp h
      have hb : (!(pyStrip s).isEmpty) = false := by
        simp [hnil]
      rw [if_neg (by simp [hb]), ih]

/-- `split_paragraphs` is: split on the paragraph pattern, strip every
segment, discard the segments that strip to nothing (the empty and
whitespace-only ones, including all separators), preserving order. -/
theorem split_paragraphs_eq (cs : List Char) :
    split_paragraphs cs = ((reSplitParas cs).map pyStrip).filter (fun s => !s.isEmpty) := by
  unfold split_paragraphs
  exact filterMap_strip (reSplitParas cs)

/-! ### Shape of the normalized text: no newline characters remain and the
result has no leading or trailing whitespace. -/

theorem takeSep_fst_chars : ∀ cs : List Char, ∀ c ∈ (takeSep cs).1, c = '\n' ∨ c = ' '
  | [] => by simp [takeSep]
  | c :: rest => by
    rw [takeSep]
    by_cases h : c = '\n'
    · rw [if_pos h]
      intro x hx
      dsimp only at hx
      rcases List.mem_cons.mp hx with h1 | h1
      · left
        rw [h1, h]
      · rcases List.mem_append.mp h1 with h2 | h2
        · right
          simpa using List.mem_takeWhile_imp h2
        · exact takeSep_fst_chars (rest.dropWhile (· = ' ')) x h2
    · rw [if_neg h]
      simp
termination_by cs => cs.length
decreasing_by
  · have h1 := dropWhile_len_le (· = ' ') rest
    simp only [List.length_cons]; omega

theorem reSplit_rec_decrease (cs : List Char) (h : ¬ cs.dropWhile (· ≠ '\n') = []) :
    (takeSep (cs.dropWhile (· ≠ '\n'))).2.length < cs.length := by
  have hh := List.head_dropWhile_not (· ≠ '\n') cs h
  have hh' : (cs.dropWhile (· ≠ '\n')).head h = '\n' := by simpa using hh
  have hcons : (cs.dropWhile (· ≠ '\n')).head h :: (cs.dropWhile (· ≠ '\n')).tail
      = cs.dropWhile (· ≠ '\n') := List.head_cons_tail _ h
  rw [hh'] at hcons
  have h2 := takeSep_cons_newline_snd_le ((cs.dropWhile (· ≠ '\n')).tail)
  rw [hcons] at h2
  have h3 := dropWhile_len_le (· ≠ '\n') cs
  have h4 : (cs.dropWhile (· ≠ '\n')).tail.length < (cs.dropWhile (· ≠ '\n')).length := by
    rw [← hcons]; simp
  omega

theorem reSplitParas_piece_or_sep (cs : List Char) :
    ∀ s ∈ reSplitParas cs, ('\n' ∉ s) ∨ (∀ c ∈ s, c = '\n' ∨ c = ' ') := by
  rw [reSplitParas]
  by_cases h : cs.dropWhile (· ≠ '\n') = []
  · rw [dif_pos h]
    intro s hs
    simp only [List.mem_singleton] at hs
    subst hs
    left
    intro hc
    have := List.mem_takeWhile_imp hc
    simp at this
  · rw [dif_neg h]
    intro s hs
    rcases List.mem_cons.mp hs with h1 | h1
    · subst h1
      left
      intro hc
      have := List.mem_takeWhile_imp hc
      simp at this
    · rcases List.mem_cons.mp h1 with h2 | h2
      · subst h2
        exact Or.inr (takeSep_fst_chars _)
      · exact reSplitParas_piece_or_sep (takeSep (cs.dropWhile (· ≠ '\n'))).2 s h2
termination_by cs.length
decreasing_by
  · exact reSplit_rec_decrease cs h

/-- Every surviving paragraph is non-empty, contains no newline, and starts
and ends with a non-whitespace character. -/
theorem split_paragraphs_good (cs : List Char) :
    ∀ p ∈ split_paragraphs cs, p ≠ [] ∧ '\n' ∉ p ∧
      (∀ c, p.head? = some c → pySpace c = false) ∧
      (∀ c, p.getLast? = some c → pySpace c = false) := by
  intro p hp
  rw [split_paragraphs_eq, List.mem_filter] at hp
  obtain ⟨hp1, hp2⟩ := hp
  rw [List.mem_map] at hp1
  obtain ⟨s, hs, rfl⟩ := hp1
  have hne : pyStrip s ≠ [] := by
    intro he
    rw [he] at hp2
    simp at hp2
  refine ⟨hne, ?_, ?_, ?_⟩
  · rcases reSplitParas_piece_or_sep cs s hs with h | h
    · exact fun hc => h (mem_pyStrip hc)
    · exfalso
      apply hne
      rw [pyStrip_eq_nil_iff, List.all_eq_true]
      intro x hx
      rcases h x hx with h1 | h1
      · rw [h1]; decide
      · rw [h1]; decide
  · intro c hc
    unfold pyStrip at hc
    rcases hu : ((s.dropWhile pySpace).reverse.dropWhile pySpace).reverse
      with - | ⟨c', w⟩
    · rw [hu] at hc
      simp at hc
    · rw [hu] at hc
      simp only [List.head?_cons, Option.some.injEq] at hc
      subst hc
      obtain ⟨pre, hpre⟩ :=
        List.dropWhile_suffix (l := (s.dropWhile pySpace).reverse) pySpace
      have ht : ((s.dropWhile pySpace).reverse.dropWhile pySpace).reverse ++ pre.reverse
          = s.dropWhile pySpace := by
        have hr := congrArg List.reverse hpre
        simpa [List.reverse_append] using hr
      rw [hu] at ht
      have hh := List.head?_dropWhile_not pySpace s
      rw [← ht] at hh
      simpa using hh
  · intro c hc
    unfold pyStrip at hc
    rw [List.getLast?_reverse] at hc
    have hh := List.head?_dropWhile_not pySpace (s.dropWhile pySpace).reverse
    rw [hc] at hh
    exact hh

theorem joinSep_ne_nil (sep : List Char) :
    ∀ (p : List Char) (ps : List (List Char)), p ≠ [] → joinSep sep (p :: ps) ≠ []
  | p, [], h => by simpa [joinSep] using h
  | p, q :: rest, h => by
    simp [joinSep, h]

theorem joinSep_no_newline (sep : List Char) (hsep : '\n' ∉ sep) :
    ∀ ps : List (List Char), (∀ p ∈ ps, '\n' ∉ p) → '\n' ∉ joinSep sep ps
  | [], _ => by simp [joinSep]
  | [p], h => by simpa [joinSep] using h p (by simp)
  | p :: q :: rest, h => by
    rw [joinSep]
    intro hc
    rcases List.mem_append.mp hc with h1 | h1
    · rcases List.mem_append.mp h1 with h2 | h2
      · exact h p (by simp) h2
      · exact hsep h2
    · exact joinSep_no_newline sep hsep (q :: rest)
        (fun x hx => h x (List.mem_cons_of_mem _ hx)) h1

theorem joinSep_head_not_space (sep : List Char) :
    ∀ ps : List (List Char), (∀ p ∈ ps, p ≠ []) →
      (∀ p ∈ ps, ∀ c, p.head? = some c → pySpace c = false) →
      ∀ c, (joinSep sep ps).head? = some c → pySpace c = false
  | [], _, _, c, hc => by simp [joinSep] at hc
  | [p], _, h, c, hc => h p (by simp) c (by simpa [joinSep] using hc)
  | p :: q :: rest, hne, h, c, hc => by
    rw [joinSep] at hc
    rcases hp : p with - | ⟨x, xs⟩
    · exact absurd hp (hne p (by simp))
    · rw [hp] at hc
      simp only [List.cons_append, List.head?_cons, Option.some.injEq] at hc
      rw [← hc]
      exact h p (by simp) x (by rw [hp]; rfl)

theorem joinSep_getLast_not_space (sep : List Char) :
    ∀ ps : List (List Char), (∀ p ∈ ps, p ≠ []) →
      (∀ p ∈ ps, ∀ c, p.getLast? = some c → pySpace c = false) →
      ∀ c, (joinSep sep ps).getLast? = some c → pySpace c = false
  | [], _, _, c, hc => by simp [joinSep] at hc
  | [p], _, h, c, hc => h p (by simp) c (by simpa [joinSep] using hc)
  | p :: q :: rest, hne, h, c, hc => by
    rw [joinSep] at hc
    have hJ : joinSep sep (q :: rest) ≠ [] :=
      joinSep_ne_nil sep q rest (hne q (by simp))
    rw [List.getLast?_append_of_ne_nil _ hJ] at hc
    exact joinSep_getLast_not_space sep (q :: rest)
      (fun x hx => hne x (List.mem_cons_of_mem _ hx))
      (fun x hx => h x (List.mem_cons_of_mem _ hx)) c hc

/-! ## The processor layer (processor.py lines 106–178). -/

/-- `Chunk` dataclass (processor.py lines 106–113). -/
structure Chunk where
  text : List (List Char)
  chunk_location : Option (List Char)
deriving Repr, DecidableEq

/-- `Redline` dataclass (processor.py lines 116–124).  The `opcodes` field is
annotated `Tuple[str, int, int, int, int]` in the source: it holds a single
opcode 5-tuple. -/
structure Redline where
  source_chunk : Chunk
  test_chunk : Chunk
  opcodes : Opcode
deriving Repr, DecidableEq

/-- Modelled from the spec: the `Document` collaborator (§6) is imported from
`redlines.document`, which is not among the given sources; it supplies a
`text` string and an optional `location` tag. -/
structure Document where
  text : List Char
  location : Option (List Char) := none
deriving Repr, DecidableEq

/-- A `Union[Document, str]` argument of `process`. -/
inductive DocOrStr where
  | doc (d : Document) : DocOrStr
  | str (s : List Char) : DocOrStr
deriving Repr, DecidableEq

/-- `source.text if isinstance(source, Document) else source`
(processor.py lines 161–162). -/
def getText : DocOrStr → List Char
  | .doc d => d.text
  | .str s => s

/-- The attribute state of a `WholeDocumentProcessor` instance: the class
annotates `source: str` and `test: str` (attributes that do not exist until
the first `process` call assigns them, modelled by `Option`) and
`tokenizer_type: TokenizerType = TokenizerType.REGEX` (processor.py
lines 147–150). -/
structure WholeDocumentProcessor where
  source : Option (List Char) := none
  test : Option (List Char) := none
  tokenizer_type : String := TokenizerType.REGEX
deriving Repr, DecidableEq

/-- `WholeDocumentProcessor.process` (processor.py lines 152–178): assign the
two extracted texts to `self.source` / `self.test`, normalize and tokenize
both, run `SequenceMatcher(None, seq_source, seq_test)` and return one
`Redline` per opcode of `get_opcodes()`, each carrying the two full token
sequences as chunks with `chunk_location=None`.  The result pairs the
mutated instance with the outcome; a `ValueError` raised by `tokenize_text`
propagates (as `Except.error`) after the assignments, producing no
redlines. -/
def process (self : WholeDocumentProcessor) (source test : DocOrStr) :
    WholeDocumentProcessor × Except String (List Redline) :=
  ({ self with source := some (getText source), test := some (getText test) },
    match tokenize_text (concatenate_paragraphs_and_add_chr_182 (getText source))
        self.tokenizer_type with
    | .error e => .error e
    | .ok seq_source =>
      match tokenize_text (concatenate_paragraphs_and_add_chr_182 (getText test))
          self.tokenizer_type with
      | .error e => .error e
      | .ok seq_test =>
        .ok ((get_opcodes seq_source seq_test).map fun opcode =>
          { source_chunk := { text := seq_source, chunk_location := none }
            test_chunk := { text := seq_test, chunk_location := none }
            opcodes := opcode }))

/-- Whether every Redline of a `process` outcome carries `None` as the
location of both of its chunks (vacuously true for an error outcome). -/
def allLocationsNone : Except String (List Redline) → Bool
  | .error _ => true
  | .ok l => l.all fun r =>
      decide (r.source_chunk.chunk_location = none ∧ r.test_chunk.chunk_location = none)

/-! # Claim theorems -/

/-- Claim C2, counterexample: the pattern-strategy round-trip fails as
stated.  Tokenizing the two-character text " a" (leading space) and joining
the tokens yields "a": `re.findall` never matches the leading whitespace. -/
theorem C2_counterexample :
    Except.map List.flatten (tokenize_text [' ', 'a'] TokenizerType.REGEX) =
      .ok ['a'] ∧
    Except.map List.flatten (tokenize_text [' ', 'a'] TokenizerType.REGEX) ≠
      .ok [' ', 'a'] := by
  have h : Except.map List.flatten (tokenize_text [' ', 'a'] TokenizerType.REGEX) =
      .ok ['a'] := by
    simp [tokenize_text, TokenizerType.REGEX, tokenizeRegex, pySpace, Except.map]
  exact ⟨h, by rw [h]; simp⟩

/-- Claim C2, amended: joining the pattern-strategy tokens reproduces the
input with its leading whitespace removed — an exact round-trip precisely
when the input does not begin with whitespace; the linguistic strategy
(modelled from the spec) round-trips exactly on every input. -/
theorem C2_amended (cs : List Char) :
    Except.map List.flatten (tokenize_text cs TokenizerType.REGEX) =
      .ok (cs.dropWhile pySpace) ∧
    Except.map List.flatten (tokenize_text cs TokenizerType.SPACY) = .ok cs := by
  constructor
  · simp [tokenize_text, Except.map, tokenizeRegex_join]
  · simp [tokenize_text, TokenizerType.REGEX, TokenizerType.SPACY, Except.map,
      spacyTokenize_join]

/-- Claim C3: aligning a non-empty token sequence against itself (as
`process` does via `SequenceMatcher` when the two token sequences are
equal) produces exactly one opcode, tagged `equal`, spanning the whole
sequence on both sides. -/
theorem C3_theorem (S : List (List Char)) (h : S ≠ []) :
    get_opcodes S S = [("equal", 0, S.length, 0, S.length)] :=
  get_opcodes_self S h

theorem C3_witness :
    (([['x']] : List (List Char)) ≠ []) ∧
    get_opcodes ([['x']] : List (List Char)) [['x']] = [("equal", 0, 1, 0, 1)] := by
  constructor
  · simp
  · simpa using C3_theorem [['x']] (by simp)

/-- Claim C4: for every pair of token sequences the opcode list produced by
the alignment step is contiguous and exhaustive — each opcode starts where
the previous one ended, the first starts at `i1 = j1 = 0` and the last ends
at the two sequence lengths, tiling both sequences without gaps or
overlaps. -/
theorem C4_theorem (a b : List (List Char)) :
    opcodesTile a.length b.length 0 0 (get_opcodes a b) :=
  get_opcodes_tile a b

/-- Claim C5: the paragraph normalizer returns the paragraphs of
`split_paragraphs` joined with the literal three-character separator
`" ¶ "` between consecutive paragraphs; with zero paragraphs the result is
empty and with exactly one paragraph the result is that paragraph
unchanged, with no trailing separator. -/
theorem C5_theorem (cs : List Char) :
    concatenate_paragraphs_and_add_chr_182 cs =
      joinSep pilcrowSep (split_paragraphs cs) ∧
    joinSep pilcrowSep [] = [] ∧
    (∀ p : List Char, joinSep pilcrowSep [p] = p) :=
  ⟨concat_eq_joinSep cs, rfl, fun _ => rfl⟩

/-- Claim C6: `split_paragraphs` splits on every maximal run of newlines
each optionally followed by spaces, strips each segment, and discards the
empty and whitespace-only segments, preserving order; in particular on
"Hello\n\n  \nWorld" it returns ["Hello", "World"]. -/
theorem C6_theorem :
    split_paragraphs
        ['H', 'e', 'l', 'l', 'o', '\n', '\n', ' ', ' ', '\n', 'W', 'o', 'r', 'l', 'd'] =
      [['H', 'e', 'l', 'l', 'o'], ['W', 'o', 'r', 'l', 'd']] ∧
    ∀ cs : List Char, split_paragraphs cs =
      ((reSplitParas cs).map pyStrip).filter (fun s => !s.isEmpty) := by
  refine ⟨?_, split_paragraphs_eq⟩
  simp [split_paragraphs, reSplitParas, takeSep, pyStrip, pySpace]

/-- Claim C8: an invalid tokenizer strategy value makes `tokenize_text`
(and hence `process`) fail with a `ValueError` whose message names the
invalid value; no redlines are produced. -/
theorem C8_theorem (text : List Char) (choice : String)
    (h1 : choice ≠ TokenizerType.REGEX) (h2 : choice ≠ TokenizerType.SPACY) :
    tokenize_text text choice = .error ("Invalid choice: " ++ choice) ∧
    ∀ (p : WholeDocumentProcessor) (src tst : DocOrStr), p.tokenizer_type = choice →
      (process p src tst).2 = .error ("Invalid choice: " ++ choice) := by
  have htok : ∀ t : List Char,
      tokenize_text t choice = .error ("Invalid choice: " ++ choice) := by
    intro t
    unfold tokenize_text
    rw [if_neg h1, if_neg h2]
  refine ⟨htok text, ?_⟩
  intro p src tst hp
  unfold process
  dsimp only
  rw [hp, htok]

theorem C8_witness :
    ("bogus" ≠ TokenizerType.REGEX) ∧ ("bogus" ≠ TokenizerType.SPACY) ∧
    tokenize_text ['a'] "bogus" = .error ("Invalid choice: " ++ "bogus") ∧
    (process { tokenizer_type := "bogus" } (.str ['a']) (.str ['b'])).2 =
      .error ("Invalid choice: " ++ "bogus") := by
  have h := C8_theorem ['a'] "bogus" (by decide) (by decide)
  exact ⟨by decide, by decide, h.1,
    h.2 { tokenizer_type := "bogus" } (.str ['a']) (.str ['b']) rfl⟩

/-- Claim C9, counterexample: `process` stores state on the instance — it
assigns `self.source` and `self.test` — so the observable state of the
processor after a call differs from the state before it. -/
theorem C9_counterexample :
    (process {} (.str ['a']) (.str ['b'])).1 ≠ ({} : WholeDocumentProcessor) := by
  decide

/-- Claim C9, amended: `process` does overwrite `self.source` and
`self.test` (the observable state change is exactly those two
assignments), but its result depends only on the arguments and the
`tokenizer_type` configuration, never on the previously stored attributes,
so two calls on the same instance cannot influence each other's results. -/
theorem C9_amended (p1 p2 : WholeDocumentProcessor) (src tst : DocOrStr)
    (h : p1.tokenizer_type = p2.tokenizer_type) :
    (process p1 src tst).2 = (process p2 src tst).2 ∧
    (process p1 src tst).1 =
      { p1 with source := some (getText src), test := some (getText tst) } := by
  unfold process
  rw [h]
  exact ⟨rfl, rfl⟩

theorem C9_amended_witness :
    (({} : WholeDocumentProcessor).tokenizer_type =
      ({ source := some ['x'], test := some ['y'] } :
        WholeDocumentProcessor).tokenizer_type) ∧
    (process {} (.str ['a']) (.str ['b'])).2 =
      (process { source := some ['x'], test := some ['y'] }
        (.str ['a']) (.str ['b'])).2 ∧
    (process {} (.str ['a']) (.str ['b'])).1 =
      { ({} : WholeDocumentProcessor) with
          source := some ['a'], test := some ['b'] } := by
  have h := C9_amended {} { source := some ['x'], test := some ['y'] }
    (.str ['a']) (.str ['b']) rfl
  exact ⟨rfl, h.1, h.2⟩

/-- Claim C10: for every input the normalizer's output contains no newline
character and has no leading or trailing whitespace: it is either empty or
starts and ends with a non-whitespace character. -/
theorem C10_theorem (cs : List Char) :
    '\n' ∉ concatenate_paragraphs_and_add_chr_182 cs ∧
    (∀ c, (concatenate_paragraphs_and_add_chr_182 cs).head? = some c →
      pySpace c = false) ∧
    (∀ c, (concatenate_paragraphs_and_add_chr_182 cs).getLast? = some c →
      pySpace c = false) := by
  have hgood := split_paragraphs_good cs
  rw [concat_eq_joinSep]
  refine ⟨?_, ?_, ?_⟩
  · exact joinSep_no_newline pilcrowSep (by decide) _ (fun p hp => (hgood p hp).2.1)
  · exact joinSep_head_not_space pilcrowSep _ (fun p hp => (hgood p hp).1)
      (fun p hp => (hgood p hp).2.2.1)
  · exact joinSep_getLast_not_space pilcrowSep _ (fun p hp => (hgood p hp).1)
      (fun p hp => (hgood p hp).2.2.2)

/-- Claim C1, counterexample: on source "a b" and test "c b" the alignment
has two opcodes (`replace` then `equal`) and `process` returns two
Redlines — one per opcode — not exactly one Redline. -/
theorem C1_counterexample :
    Except.map List.length
      (process {} (.str ['a', ' ', 'b']) (.str ['c', ' ', 'b'])).2 = .ok 2 ∧
    Except.map List.length
      (process {} (.str ['a', ' ', 'b']) (.str ['c', ' ', 'b'])).2 ≠ .ok 1 := by
  have hca : concatenate_paragraphs_and_add_chr_182 ['a', ' ', 'b'] = ['a', ' ', 'b'] := by
    simp [concatenate_paragraphs_and_add_chr_182, split_paragraphs, reSplitParas,
      takeSep, pyStrip, pySpace]
  have hcb : concatenate_paragraphs_and_add_chr_182 ['c', ' ', 'b'] = ['c', ' ', 'b'] := by
    simp [concatenate_paragraphs_and_add_chr_182, split_paragraphs, reSplitParas,
      takeSep, pyStrip, pySpace]
  have hta : tokenizeRegex ['a', ' ', 'b'] = [['a', ' '], ['b']] := by
    simp [tokenizeRegex, pySpace]
  have htb : tokenizeRegex ['c', ' ', 'b'] = [['c', ' '], ['b']] := by
    simp [tokenizeRegex, pySpace]
  have h1 : find_longest_match [['a', ' '], ['b']] [['c', ' '], ['b']] 0 2 0 2
      = (1, 1, 1) := by
    simp [find_longest_match, flmLoop, innerRow, rowJs, b2jGet, b2jAll, popularPurged,
      innerStep, kval, alookup, extendBack, extendFwd, flmFinish,
      List.range_succ, List.filter_append, List.foldl_append]
  have h2 : find_longest_match [['a', ' '], ['b']] [['c', ' '], ['b']] 0 1 0 1
      = (0, 0, 0) := by
    simp [find_longest_match, flmLoop, innerRow, rowJs, b2jGet, b2jAll, popularPurged,
      innerStep, kval, alookup, extendBack, extendFwd, flmFinish,
      List.range_succ, List.filter_append, List.foldl_append]
  have hblocks : matchingBlocksRec [['a', ' '], ['b']] [['c', ' '], ['b']] 0 2 0 2
      = [(1, 1, 1)] := by
    rw [matchingBlocksRec_eq h1, matchingBlocksRec_eq h2]
    norm_num
  have hops : get_opcodes [['a', ' '], ['b']] [['c', ' '], ['b']] =
      [("replace", 0, 1, 0, 1), ("equal", 1, 2, 1, 2)] := by
    simp [get_opcodes, get_matching_blocks, hblocks, collapseBlocks, opcodesFromBlocks]
  have hmain : Except.map List.length
      (process {} (.str ['a', ' ', 'b']) (.str ['c', ' ', 'b'])).2 = .ok 2 := by
    simp [process, tokenize_text, TokenizerType.REGEX, hca, hcb, hta, htb, hops,
      getText, Except.map]
  exact ⟨hmain, by rw [hmain]; simp⟩

/-- Claim C1, amended: `process` returns one Redline per opcode of the full
opcode list that aligns the two token sequences; every Redline carries the
same two chunks — the full source and test token sequences — and a single
opcode of that list. -/
theorem C1_amended (p : WholeDocumentProcessor) (src tst : DocOrStr)
    (h : p.tokenizer_type = TokenizerType.REGEX) :
    (process p src tst).2 = .ok
      ((get_opcodes
          (tokenizeRegex (concatenate_paragraphs_and_add_chr_182 (getText src)))
          (tokenizeRegex (concatenate_paragraphs_and_add_chr_182 (getText tst)))).map
        fun opcode =>
          { source_chunk :=
              { text := tokenizeRegex
                  (concatenate_paragraphs_and_add_chr_182 (getText src)),
                chunk_location := none }
            test_chunk :=
              { text := tokenizeRegex
                  (concatenate_paragraphs_and_add_chr_182 (getText tst)),
                chunk_location := none }
            opcodes := opcode }) := by
  unfold process tokenize_text
  rw [h]
  simp [TokenizerType.REGEX]

theorem C1_amended_witness :
    (({} : WholeDocumentProcessor).tokenizer_type = TokenizerType.REGEX) ∧
    (process {} (.str ['a']) (.str ['b'])).2 = .ok
      ((get_opcodes
          (tokenizeRegex (concatenate_paragraphs_and_add_chr_182 (getText (.str ['a']))))
          (tokenizeRegex (concatenate_paragraphs_and_add_chr_182 (getText (.str ['b']))))).map
        fun opcode =>
          { source_chunk :=
              { text := tokenizeRegex
                  (concatenate_paragraphs_and_add_chr_182 (getText (.str ['a']))),
                chunk_location := none }
            test_chunk :=
              { text := tokenizeRegex
                  (concatenate_paragraphs_and_add_chr_182 (getText (.str ['b']))),
                chunk_location := none }
            opcodes := opcode }) :=
  ⟨rfl, C1_amended {} (.str ['a']) (.str ['b']) rfl⟩

/-- Claim C7, counterexample: `process` never propagates a document's
location: even when the `Document` supplies one, the resulting chunks
carry `chunk_location = None`. -/
theorem C7_counterexample :
    Except.map (List.map fun r => r.source_chunk.chunk_location)
      (process {} (.doc ⟨['a'], some ['p', '1']⟩) (.doc ⟨['a'], some ['p', '1']⟩)).2 =
      .ok [none] ∧
    Except.map (List.map fun r => r.source_chunk.chunk_location)
      (process {} (.doc ⟨['a'], some ['p', '1']⟩) (.doc ⟨['a'], some ['p', '1']⟩)).2 ≠
      .ok [some ['p', '1']] := by
  have hca : concatenate_paragraphs_and_add_chr_182 ['a'] = ['a'] := by
    simp [concatenate_paragraphs_and_add_chr_182, split_paragraphs, reSplitParas,
      takeSep, pyStrip, pySpace]
  have hta : tokenizeRegex ['a'] = [['a']] := by
    simp [tokenizeRegex, pySpace]
  have hops : get_opcodes [['a']] ([['a']] : List (List Char)) =
      [("equal", 0, 1, 0, 1)] := by
    simpa using get_opcodes_self ([['a']] : List (List Char)) (by simp)
  have hmain : Except.map (List.map fun r => r.source_chunk.chunk_location)
      (process {} (.doc ⟨['a'], some ['p', '1']⟩) (.doc ⟨['a'], some ['p', '1']⟩)).2 =
      .ok [none] := by
    simp [process, tokenize_text, TokenizerType.REGEX, hca, hta, hops, getText,
      Except.map]
  exact ⟨hmain, by rw [hmain]; simp⟩

/-- Claim C7, amended: when given `Document`s, `process` operates on their
`text` strings exactly as it would on raw strings; the resulting chunks
always carry `chunk_location = None`, even when the documents supply a
location. -/
theorem C7_amended (p : WholeDocumentProcessor) (d1 d2 : Document) :
    process p (.doc d1) (.doc d2) = process p (.str d1.text) (.str d2.text) ∧
    ∀ (src tst : DocOrStr), allLocationsNone (process p src tst).2 = true := by
  refine ⟨rfl, ?_⟩
  intro src tst
  unfold process allLocationsNone
  dsimp only
  cases hx : tokenize_text (concatenate_paragraphs_and_add_chr_182 (getText src))
      p.tokenizer_type with
  | error e => rfl
  | ok s1 =>
    cases hy : tokenize_text (concatenate_paragraphs_and_add_chr_182 (getText tst))
        p.tokenizer_type with
    | error e => rfl
    | ok s2 =>
      simp only [List.all_eq_true, List.mem_map, decide_eq_true_eq]
      rintro x ⟨a, -, rfl⟩
      exact ⟨rfl, rfl⟩

theorem C10_witness : pySpace 'H' = false ∧ pySpace 'd' = false := by
  have hev : concatenate_paragraphs_and_add_chr_182
      ['H', 'e', 'l', 'l', 'o', '\n', 'W', 'o', 'r', 'l', 'd'] =
      ['H', 'e', 'l', 'l', 'o', ' ', '¶', ' ', 'W', 'o', 'r', 'l', 'd'] := by
    simp [concatenate_paragraphs_and_add_chr_182, split_paragraphs, reSplitParas,
      takeSep, pyStrip, pySpace, pilcrowSep, joinSep]
  have h := C10_theorem ['H', 'e', 'l', 'l', 'o', '\n', 'W', 'o', 'r', 'l', 'd']
  exact ⟨h.2.1 'H' (by rw [hev]; rfl), h.2.2 'd' (by rw [hev]; decide)⟩

end Redlines
